import Mathlib

/-!
Verification of the cfshare file-sharing daemon (Go sources under internal/
and main.go) against its natural-language specification.

The Go code is shallowly embedded: strings are Lean `String`s (Go strings are
byte slices; all paths handled here are treated at character granularity,
which agrees with Go's byte-level functions on the `/`-separated paths the
program manipulates), the filesystem and operating system are explicit
environment records, and every fallible operation returns `Except`/`Option`.
-/

namespace Cfshare

/-! ### Character-list primitives mirroring Go's `strings` package

`chSplit sep` is Go's `strings.Split` for a one-character separator;
`chJoin` is `strings.Join`.  They are defined on `List Char` (the `data`
field of `String`) so that all reasoning is plain list induction. -/

def chSplit (sep : Char) : List Char → List (List Char)
  | [] => [[]]
  | c :: cs =>
    if c = sep then [] :: chSplit sep cs
    else
      match chSplit sep cs with
      | [] => [[c]]
      | h :: t => (c :: h) :: t

def chJoin (sep : Char) : List (List Char) → List Char
  | [] => []
  | [x] => x
  | x :: xs => x ++ sep :: chJoin sep xs

def chDropRightWhile (p : Char → Bool) (l : List Char) : List Char :=
  (l.reverse.dropWhile p).reverse

/-- Go `strings.Split s "/"`, producing Lean strings. -/
def splitSlash (s : String) : List String :=
  (chSplit '/' s.data).map String.mk

/-- Go `strings.Join l "/"`. -/
def joinSlash (l : List String) : String :=
  String.mk (chJoin '/' (l.map String.data))

/-- Go `strings.HasPrefix s pre` (byte-prefix test). -/
def hasPre (s pre : String) : Bool :=
  pre.data.isPrefixOf s.data

/-- Go `strings.HasSuffix s suf`. -/
def hasSuf (s suf : String) : Bool :=
  suf.data.isSuffixOf s.data

/-- Go `strings.TrimPrefix s pre`. -/
def trimPre (s pre : String) : String :=
  if pre.data.isPrefixOf s.data then String.mk (s.data.drop pre.data.length) else s

/-- Go `strings.TrimSuffix s suf`. -/
def trimSuf (s suf : String) : String :=
  if suf.data.isSuffixOf s.data then String.mk (s.data.take (s.data.length - suf.data.length)) else s

/-! ### Go `path/filepath` on Unix -/

/-- The segment-processing loop of Go `filepath.Clean`: empty and `.`
segments are dropped; `..` pops a previous non-`..` segment, is dropped at
the root of a rooted path and is kept otherwise; other segments are kept. -/
def cleanAux (rooted : Bool) : List String → List String → List String
  | out, [] => out
  | out, seg :: rest =>
    if seg = "" ∨ seg = "." then cleanAux rooted out rest
    else if seg = ".." then
      if out ≠ [] ∧ out.getLast? ≠ some ".." then cleanAux rooted out.dropLast rest
      else if rooted then cleanAux rooted out rest
      else cleanAux rooted (out ++ [".."]) rest
    else cleanAux rooted (out ++ [seg]) rest

/-- Go `filepath.Clean` (Unix separator). -/
def goClean (p : String) : String :=
  if p = "" then "."
  else
    let rooted := hasPre p "/"
    let out := cleanAux rooted [] (splitSlash p)
    if rooted then "/" ++ joinSlash out
    else if out = [] then "." else joinSlash out

/-- Go `filepath.Join a b` (two arguments; empty elements are skipped and
the result is cleaned, the all-empty join is the empty string). -/
def goJoin (a b : String) : String :=
  if a = "" ∧ b = "" then ""
  else if a = "" then goClean b
  else if b = "" then goClean a
  else goClean (a ++ "/" ++ b)

/-- Go `filepath.Base`. -/
def goBase (p : String) : String :=
  if p = "" then "."
  else
    let q := chDropRightWhile (fun c => c = '/') p.data
    if q = [] then "/"
    else String.mk ((q.reverse.takeWhile (fun c => c ≠ '/')).reverse)

/-- Go `filepath.Dir`. -/
def goDir (p : String) : String :=
  goClean (String.mk (chDropRightWhile (fun c => c ≠ '/') p.data))

/-- Go `filepath.Abs` relative to a working directory `cwd`. -/
def goAbs (cwd p : String) : String :=
  if hasPre p "/" then goClean p else goJoin cwd p

/-- Go `strings.SplitN s "/" 2`. -/
def splitN2 (s : String) : List String :=
  match splitSlash s with
  | [] => [s]
  | [x] => [x]
  | x :: rest => [x, joinSlash rest]

/-- Does the path contain a `..` (parent-directory) segment? -/
def hasDotDotSeg (p : String) : Bool :=
  (splitSlash p).contains ".."

example : goClean "/sub/../../../etc/passwd" = "/etc/passwd" := by decide
example : goClean "../../etc/passwd" = "../../etc/passwd" := by decide
example : goClean "a/../.." = ".." := by decide
example : goClean "/.." = "/" := by decide
example : goClean "" = "." := by decide
example : goClean "/a/b/" = "/a/b" := by decide
example : goBase "/tmp/report.pdf" = "report.pdf" := by decide
example : goBase "/" = "/" := by decide
example : goDir "/a/b" = "/a" := by decide
example : goDir "abc" = "." := by decide
example : splitN2 "a/b/c" = ["a", "b/c"] := by decide
example : splitN2 "a" = ["a"] := by decide
example : goJoin "/tmp" "x/y" = "/tmp/x/y" := by decide
example : hasDotDotSeg "../../etc/passwd" = true := by decide
example : hasDotDotSeg "/etc/passwd" = false := by decide

/-! ### Data model (internal/state) -/

/-- `state.ShareItem`: one shared filesystem root.  `shareType` is the Go
string type `ShareType` with values `"file"` and `"dir"` (and `""` when
unset). -/
structure ShareItem where
  path : String
  name : String
  shareType : String
  size : Int
deriving DecidableEq

instance : Inhabited ShareItem := ⟨⟨"", "", "", 0⟩⟩

/-- The fields of `state.State` that the state file persists (the JSON
document).  Go's JSON encode/decode pair on this fixed-shape struct is
modelled as the identity on the record: every field round-trips through
its tag (`omitempty` maps the empty string / empty list to an absent key
and back). -/
structure StateRec where
  shareID : String
  mode : String
  port : Int
  items : List ShareItem
  isMulti : Bool
  path : String
  shareType : String
  serverPID : Int
  tunnelPID : Int
  username : String
  password : String
  startTime : Int
  lastAccess : Int
  requestCount : Int
  publicURL : String
deriving DecidableEq

/-- `state.State.Save` (part_008): before writing, the legacy mirror
fields are synchronised with the item list — a single item is copied into
`Path`/`ShareType` with `IsMulti = false`, more than one item clears them
with `IsMulti = true`.  The returned record is the document written to the
state file. -/
def saveDoc (s : StateRec) : StateRec :=
  if s.items.length = 1 then
    { s with
      path := (s.items.headD default).path
      shareType := (s.items.headD default).shareType
      isMulti := false }
  else if s.items.length > 1 then
    { s with isMulti := true, path := "", shareType := "" }
  else s

/-- `state.Load` (part_008), applied to a successfully parsed document:
a legacy document (no item list, bare `path` field set) is migrated to a
one-element item list whose name is the base name of the legacy path. -/
def loadState (doc : StateRec) : StateRec :=
  if doc.items.length = 0 ∧ doc.path ≠ "" then
    { doc with
      items := [⟨doc.path, goBase doc.path, doc.shareType, 0⟩]
      isMulti := false }
  else doc

/-! ### Virtual namespace (internal/server NewServer / buildItemMap) -/

/-- Lookup in the name-to-item map (Go map indexing; the map is an
association list with unique keys, so first-match lookup is exact). -/
def lookupName (m : List (String × ShareItem)) (k : String) : Option ShareItem :=
  match m with
  | [] => none
  | (n, v) :: rest => if n = k then some v else lookupName rest k

/-- The loop of `buildItemMap` (part_004): insert each item keyed by its
display name, failing on the first duplicate name. -/
def buildItemMapAux (acc : List (String × ShareItem)) :
    List ShareItem → Except String (List (String × ShareItem))
  | [] => .ok acc
  | it :: rest =>
    if (lookupName acc it.name).isSome then
      .error ("name conflict: duplicate share name " ++ it.name)
    else buildItemMapAux (acc ++ [(it.name, it)]) rest

/-- `buildItemMap` (part_004): build the display-name index, detecting
name conflicts. -/
def buildItemMap (items : List ShareItem) : Except String (List (String × ShareItem)) :=
  buildItemMapAux [] items

/-! ### The HTTP serving layer (internal/server) -/

/-- Result of `os.Stat`: found (with directory flag, size, modification
time), not-existing, or failing with a non-not-exist error. -/
inductive StatResult where
  | found (isDir : Bool) (size : Int) (modTime : Int)
  | notExist
  | failure
deriving DecidableEq

/-- One entry of `os.ReadDir` output; `infoOk` models whether
`entry.Info()` succeeds (failing entries are skipped by the listers). -/
structure DirEntry where
  name : String
  isDir : Bool
  size : Int
  modTime : Int
  infoOk : Bool
deriving DecidableEq

/-- The filesystem as seen by the server: `stat`, `filepath.EvalSymlinks`
(`none` = resolution error, in which case callers fall back to the
unresolved path), `os.ReadDir` (`none` = error), and the working
directory used by `filepath.Abs`. -/
structure FS where
  stat : String → StatResult
  evalSymlinks : String → Option String
  readDir : String → Option (List DirEntry)
  cwd : String

/-- `server.FileInfo`: one row of a rendered directory listing. -/
structure FileInfo where
  name : String
  size : Int
  modTime : Int
  isDir : Bool
  path : String
deriving DecidableEq

/-- The comparison function passed to `sort.Slice` by all three listing
functions: directories sort before files, then ascending by name. -/
def goLess (a b : FileInfo) : Bool :=
  if a.isDir ≠ b.isDir then a.isDir else decide (a.name < b.name)

/-- Non-strict counterpart of `goLess` used to state sortedness: `a` may
come before `b` exactly when `b` is not strictly before `a`. -/
def fileLe (a b : FileInfo) : Bool :=
  ! goLess b a

/-- Ordered insertion into a `fileLe`-sorted list. -/
def insertFile (x : FileInfo) : List FileInfo → List FileInfo
  | [] => [x]
  | y :: ys => if fileLe x y then x :: y :: ys else y :: insertFile x ys

/-- The `sort.Slice(files, ...)` call shared by `listDirectory`,
`listVirtualRoot` and `listDirectoryWithBase`: a comparison sort under
`goLess`.  Any correct sort yields the same result on the (unique-name)
inputs these listers produce; it is realised here as insertion sort. -/
def sortFiles (files : List FileInfo) : List FileInfo :=
  match files with
  | [] => []
  | x :: xs => insertFile x (sortFiles xs)

/-- An HTTP response of the share server, at the granularity the claims
need: a rendered listing (status 200), a file streamed as an attachment
(status 200), or one of the error statuses. -/
inductive HttpResponse where
  | listing (displayPath : String) (files : List FileInfo) (parent : String)
  | fileDownload (fsPath : String) (attachmentName : String)
  | notFound
  | forbidden
  | internalError
  | unauthorized
deriving DecidableEq

/-- The status code a response is written with. -/
def statusOf : HttpResponse → Nat
  | .listing .. => 200
  | .fileDownload .. => 200
  | .notFound => 404
  | .forbidden => 403
  | .internalError => 500
  | .unauthorized => 401

/-- The `Server` struct fields that routing reads. -/
structure Server where
  items : List ShareItem
  itemMap : List (String × ShareItem)
  isMulti : Bool
  sharePath : String
  shareType : String

/-- `listDirectory` (part_004): read the directory, keep entries whose
`Info()` succeeds, and render them sorted. -/
def listDirectory (fs : FS) (fullPath reqPath : String) : HttpResponse :=
  match fs.readDir fullPath with
  | none => .internalError
  | some entries =>
    let files := entries.filterMap (fun e =>
      if e.infoOk then
        some ⟨e.name, e.size, e.modTime, e.isDir,
          goJoin reqPath e.name ++ (if e.isDir then "/" else "")⟩
      else none)
    .listing reqPath (sortFiles files) (goDir (trimSuf reqPath "/"))

/-- `serveDir` (part_004, multi-aware version): single-directory mode
browsing guarded by the clean/prefix/symlink checks. -/
def serveDir (fs : FS) (sharePath urlPath : String) : HttpResponse :=
  let reqPath := trimPre (goClean urlPath) "/"
  if hasPre reqPath ".." then .forbidden
  else
    let fullPath := goJoin sharePath reqPath
    if ¬ hasPre fullPath sharePath then .forbidden
    else
      let symViol :=
        match fs.evalSymlinks fullPath with
        | some realPath => ! hasPre realPath sharePath
        | none => false
      if symViol then .forbidden
      else
        match fs.stat fullPath with
        | .notExist => .notFound
        | .failure => .internalError
        | .found isDir _ _ =>
          if isDir then listDirectory fs fullPath reqPath
          else .fileDownload fullPath (goBase fullPath)

/-- `serveFile` (part_004): single-file mode serves only `/` and
`/<base name>`. -/
def serveFile (sharePath urlPath : String) : HttpResponse :=
  let fileName := goBase sharePath
  if urlPath ≠ "/" ∧ urlPath ≠ "/" ++ fileName then .notFound
  else .fileDownload sharePath fileName

/-- `listVirtualRoot` (part_004): the multi-mode root listing over all
share items; each row's modification time is re-read from the filesystem
(`now` stands for `time.Now()`, the fallback when the stat fails). -/
def listVirtualRoot (fs : FS) (srv : Server) (now : Int) : HttpResponse :=
  let files := srv.items.map (fun item =>
    let isDir := item.shareType = "dir"
    let modTime :=
      match fs.stat item.path with
      | .found _ _ m => m
      | _ => now
    (⟨item.name, item.size, modTime, isDir,
      "/" ++ item.name ++ (if isDir then "/" else "")⟩ : FileInfo))
  .listing "/" (sortFiles files) ""

/-- `listDirectoryWithBase` (part_004): directory listing inside a
multi-mode item, entries prefixed with the item's URL prefix. -/
def listDirectoryWithBase (fs : FS) (fullPath urlPre subPath : String) : HttpResponse :=
  match fs.readDir fullPath with
  | none => .internalError
  | some entries =>
    let currentPath := if subPath ≠ "" then urlPre ++ "/" ++ subPath else urlPre
    let files := entries.filterMap (fun e =>
      if e.infoOk then
        some ⟨e.name, e.size, e.modTime, e.isDir,
          currentPath ++ "/" ++ e.name ++ (if e.isDir then "/" else "")⟩
      else none)
    let parent :=
      if subPath ≠ "" then
        let p := urlPre ++ "/" ++ goDir subPath
        if p = urlPre ++ "/." then urlPre else p
      else "/"
    let displayPath := if ¬ hasSuf currentPath "/" then currentPath ++ "/" else currentPath
    .listing displayPath (sortFiles files) parent

/-- `serveDirWithBase` (part_004): multi-mode directory browsing below a
single item: clean the item-relative subpath, reject `..`-prefixed
subpaths, resolve the base through symlinks, and enforce that the joined
and symlink-resolved paths stay under the resolved base. -/
def serveDirWithBase (fs : FS) (basePath urlPre subPath : String) : HttpResponse :=
  let cleanSub0 := goClean subPath
  let cleanSub := if cleanSub0 = "." then "" else cleanSub0
  if hasPre cleanSub ".." then .forbidden
  else
    let realBasePath := (fs.evalSymlinks basePath).getD basePath
    let fullPath := if cleanSub ≠ "" then goJoin realBasePath cleanSub else realBasePath
    if ¬ hasPre fullPath realBasePath then .forbidden
    else
      let symViol :=
        match fs.evalSymlinks fullPath with
        | some realFullPath => ! hasPre realFullPath realBasePath
        | none => false
      if symViol then .forbidden
      else
        match fs.stat fullPath with
        | .notExist => .notFound
        | .failure => .internalError
        | .found isDir _ _ =>
          if isDir then listDirectoryWithBase fs fullPath urlPre subPath
          else .fileDownload fullPath (goBase fullPath)

/-- `handleMultiShare` (part_004): the multi-item router.  The cleaned
request path's first segment is looked up in the item map; a file item
streams (rejecting any subpath), a directory item delegates to
`serveDirWithBase`. -/
def handleMultiShare (fs : FS) (srv : Server) (now : Int) (urlPath : String) : HttpResponse :=
  let reqPath := trimPre (goClean urlPath) "/"
  if reqPath = "/" ∨ reqPath = "." ∨ reqPath = "" then
    listVirtualRoot fs srv now
  else
    let trimmedPath := trimPre reqPath "/"
    let parts := splitN2 trimmedPath
    let itemName := parts.headD ""
    let subPath := if parts.length > 1 then parts.getLastD "" else ""
    match lookupName srv.itemMap itemName with
    | none => .notFound
    | some item =>
      if item.shareType = "file" then
        if subPath ≠ "" then .notFound
        else .fileDownload item.path item.name
      else
        serveDirWithBase fs item.path ("/" ++ itemName) subPath

/-- `handleRequest` (part_004): mode dispatch. -/
def handleRequest (fs : FS) (srv : Server) (now : Int) (urlPath : String) : HttpResponse :=
  if ¬ srv.isMulti then
    if srv.shareType = "file" then serveFile srv.sharePath urlPath
    else serveDir fs srv.sharePath urlPath
  else handleMultiShare fs srv now urlPath

/-! ### Middleware pipeline (Server.Start, loggingMiddleware,
auth.BasicAuthMiddleware) -/

/-- One entry of the access-statistics ring (`state.AccessRecord`); byte
accounting of the response writer is outside this embedding. -/
structure AccessRecordM where
  time : Int
  path : String
  statusCode : Nat
  remoteAddr : String
deriving DecidableEq

/-- `loggingMiddleware` (part_004): run the inner handler, then emit
exactly one access record built from the request and the captured
status. -/
def loggingRun (inner : Unit → HttpResponse) (reqPath remoteAddr : String) (now : Int) :
    HttpResponse × List AccessRecordM :=
  let resp := inner ()
  (resp, [⟨now, reqPath, statusOf resp, remoteAddr⟩])

/-- `auth.BasicAuthMiddleware` (part_005), at the granularity the record
count needs: `authorized` abstracts the header parse / credential
comparison; a rejected request is answered 401 without running the inner
handler chain. -/
def basicAuthRun (authorized : Bool) (inner : Unit → HttpResponse × List AccessRecordM) :
    HttpResponse × List AccessRecordM :=
  if authorized then inner () else (.unauthorized, [])

/-- The handler composition of `Server.Start` (part_004): the logging
middleware wraps the request handler, and — when credentials are
configured — the basic-auth middleware wraps the logging middleware on
the outside. -/
def serverPipeline (username password : String) (authorized : Bool)
    (handler : Unit → HttpResponse) (reqPath remoteAddr : String) (now : Int) :
    HttpResponse × List AccessRecordM :=
  if username ≠ "" ∧ password ≠ "" then
    basicAuthRun authorized (fun _ => loggingRun handler reqPath remoteAddr now)
  else
    loggingRun handler reqPath remoteAddr now

/-! ### Process supervision (stopProcess, tunnel.Manager, spawning) -/

/-- A POSIX signal sent by the supervisor. -/
inductive Sig where
  | term
  | kill
deriving DecidableEq

/-- When the `done` channel of the stop `select` fires within the
escalation window.  The goroutine closes `done` when `process.Wait()`
returns — which, for a target that is a child of the calling process,
happens when the child exits (`exitsInWindow`), but for a non-child pid
`os.Process.Wait` fails immediately (ECHILD on Unix), so `done` fires at
once regardless of whether the target exited. -/
def waitDoneInWindow (isChild exitsInWindow : Bool) : Bool :=
  if ¬ isChild then true else exitsInWindow

/-- The signals issued by `stopProcess` (part_011): nothing when the pid
cannot be resolved; `SIGKILL` when forced; otherwise `SIGTERM`, then
`SIGKILL` only if the 3-second timer wins the race against the
`process.Wait()` goroutine (`waitDoneInWindow`). -/
def stopProcessSignals (findOk force isChild exitsInWindow : Bool) : List Sig :=
  if ¬ findOk then []
  else if force then [.kill]
  else if waitDoneInWindow isChild exitsInWindow then [.term] else [.term, .kill]

/-- The signals issued by `tunnel.Manager.Stop` (part_001): nothing when
no live pid is recorded or the pid cannot be resolved; `SIGTERM`, and if
sending it fails nothing more; then `SIGKILL` only if the 5-second timer
wins the race against the `process.Wait()` goroutine. -/
def tunnelStopSignals (pidPositive findOk sigTermOk isChild exitsInWindow : Bool) : List Sig :=
  if ¬ pidPositive then []
  else if ¬ findOk then []
  else if ¬ sigTermOk then [.term]
  else if waitDoneInWindow isChild exitsInWindow then [.term] else [.term, .kill]

/-- Whether a live process is still alive after receiving `sigs` in
order.  `SIGKILL` is unconditionally fatal (operating-system guarantee);
`SIGTERM` terminates the process exactly when its behaviour is to exit in
response (`exitsOnTerm`). -/
def aliveAfterSignals (exitsOnTerm : Bool) : List Sig → Bool
  | [] => true
  | .kill :: _ => false
  | .term :: rest => if exitsOnTerm then false else aliveAfterSignals exitsOnTerm rest

/-- Errors of the spawn paths; `diedImmediately` carries the log path the
message points the user at. -/
inductive SpawnErr where
  | lookPathFailed
  | exeFailed
  | logOpenFailed
  | startFailed
  | pidSaveFailed
  | diedImmediately (logPath : String)
deriving DecidableEq

/-- The environment a spawn runs against: which of its fallible steps
succeed, the child pid, and whether the child is still alive after the
settle sleep. -/
structure SpawnEnv where
  lookPathOk : Bool
  exeOk : Bool
  existingPid : Int
  logOpenOk : Bool
  logPath : String
  startOk : Bool
  childPid : Int
  pidSaveOk : Bool
  aliveAfterWait : Bool

/-- `tunnel.Manager.Start` (part_001): look up cloudflared, return an
already-running pid unchanged, open the log, start the child, persist the
pid, sleep 500 ms, and fail with a died-immediately error naming the log
file when the child is no longer alive. -/
def tunnelStart (e : SpawnEnv) : Except SpawnErr Int :=
  if ¬ e.lookPathOk then .error .lookPathFailed
  else if e.existingPid > 0 then .ok e.existingPid
  else if ¬ e.logOpenOk then .error .logOpenFailed
  else if ¬ e.startOk then .error .startFailed
  else if ¬ e.pidSaveOk then .error .pidSaveFailed
  else if ¬ e.aliveAfterWait then .error (.diedImmediately e.logPath)
  else .ok e.childPid

/-- `startServerProcess` (part_011): resolve the executable, open the
log, start the detached child, write the pid file, sleep 300 ms and
return the pid — without consulting the child's liveness. -/
def startServerProcessM (e : SpawnEnv) : Except SpawnErr Int :=
  if ¬ e.exeOk then .error .exeFailed
  else if ¬ e.logOpenOk then .error .logOpenFailed
  else if ¬ e.startOk then .error .startFailed
  else .ok e.childPid

/-! ### Controller mutations (cmdAdd, cmdRemove, part_011) -/

/-- What a controller command did before returning: whether it exited
with an error (`os.Exit(1)`), the state it handed to `Save` (none when it
never saved), and whether it restarted the server process. -/
structure CmdOutcome where
  exited : Bool
  savedState : Option StateRec
  restarted : Bool
deriving DecidableEq

/-- The path-validation loop of `cmdAdd` (part_011): each path must
stat, its display name must not collide with `existing` (the current
names, growing with each accepted new item); accepted items accumulate
in order.  `error` is the `os.Exit(1)` taken before anything is saved.
The second stat (of the absolute path) has its error ignored in Go; a
vanished path there would crash the command, which is likewise an
unsaved exit. -/
def addLoop (fs : FS) (existing : List String) (acc : List ShareItem) :
    List String → Except Unit (List ShareItem)
  | [] => .ok acc
  | p :: rest =>
    match fs.stat p with
    | .notExist => .error ()
    | .failure => .error ()
    | .found _ _ _ =>
      let absPath := goAbs fs.cwd p
      let name := goBase absPath
      if existing.contains name then .error ()
      else
        match fs.stat absPath with
        | .found isDir size _ =>
          let item : ShareItem :=
            ⟨absPath, name, if isDir then "dir" else "file", if isDir then 0 else size⟩
          addLoop fs (name :: existing) (acc ++ [item]) rest
        | _ => .error ()

/-- The state `cmdAdd` saves on success: the validated new items are
appended and the multi flag recomputed. -/
def addResult (st : StateRec) (newItems : List ShareItem) : StateRec :=
  { st with
    items := st.items ++ newItems
    isMulti := decide ((st.items ++ newItems).length > 1) }

/-- `cmdAdd` (part_011): refuse when no share is running; validate all
paths (name-conflict check against the current set first); only then
append the new items, save, and restart the server. -/
def cmdAddM (st : StateRec) (running : Bool) (fs : FS) (paths : List String) : CmdOutcome :=
  if ¬ running then ⟨true, none, false⟩
  else
    match addLoop fs (st.items.map (·.name)) [] paths with
    | .error _ => ⟨true, none, false⟩
    | .ok newItems => ⟨false, some (addResult st newItems), true⟩

/-- The state `cmdRemove` saves on success: the surviving items with the
multi flag recomputed, and — when exactly one item survives — the legacy
single-item mirror fields synchronised. -/
def removeResult (st : StateRec) (names : List String) : StateRec :=
  let remaining := st.items.filter (fun it => ! names.contains it.name)
  let st1 := { st with items := remaining, isMulti := decide (remaining.length > 1) }
  if remaining.length = 1 then
    { st1 with
      path := (remaining.headD default).path
      shareType := (remaining.headD default).shareType }
  else st1

/-- `cmdRemove` (part_011): refuse when no share is running or the item
list is empty; drop the named items; refuse when nothing matched or when
nothing would remain; otherwise save the filtered list and restart the
server. -/
def cmdRemoveM (st : StateRec) (running : Bool) (names : List String) : CmdOutcome :=
  if ¬ running then ⟨true, none, false⟩
  else if st.items.length = 0 then ⟨true, none, false⟩
  else if st.items.filter (fun it => names.contains it.name) = [] then ⟨true, none, false⟩
  else if st.items.filter (fun it => ! names.contains it.name) = [] then ⟨true, none, false⟩
  else ⟨false, some (removeResult st names), true⟩

/-! ## Theorems -/

/-- C3: for every persisted state holding at least one share item whose
multi flag satisfies the ShareSet invariant (`multi` is derived as
`count > 1`), saving and then loading yields the identical item list
(names, paths, kinds), the identical multi flag, and the identical mode
and credentials. -/
theorem C3_state_roundtrip (s : StateRec)
    (h1 : 1 ≤ s.items.length)
    (h2 : s.isMulti = decide (1 < s.items.length)) :
    (loadState (saveDoc s)).items = s.items ∧
    (loadState (saveDoc s)).isMulti = s.isMulti ∧
    (loadState (saveDoc s)).mode = s.mode ∧
    (loadState (saveDoc s)).username = s.username ∧
    (loadState (saveDoc s)).password = s.password := by
  have hne : ¬ s.items.length = 0 := by omega
  by_cases hone : s.items.length = 1
  · have hlt : ¬ (1 < s.items.length) := by omega
    simp [saveDoc, loadState, hone, hne, h2, hlt]
  · have hgt : s.items.length > 1 := by omega
    simp [saveDoc, loadState, hone, hne, h2, hgt]

/-- Witness for C3 at a concrete two-item state. -/
theorem C3_state_roundtrip_witness :
    (loadState (saveDoc ⟨"id1", "protected", 8787,
        [⟨"/tmp/a.txt", "a.txt", "file", 3⟩, ⟨"/tmp/d", "d", "dir", 0⟩],
        true, "", "", 0, 0, "share", "pw", 0, 0, 0, "https://x.example"⟩)).items =
      [⟨"/tmp/a.txt", "a.txt", "file", 3⟩, ⟨"/tmp/d", "d", "dir", 0⟩] := by
  exact (C3_state_roundtrip _ (by decide) (by decide)).1

/-- C4: loading a legacy-format document (no item list, bare path set)
yields exactly one item whose name is the base name of the legacy path,
whose path and type are the legacy fields, with the multi flag false. -/
theorem C4_legacy_load (doc : StateRec) (h0 : doc.items = []) (h1 : doc.path ≠ "") :
    (loadState doc).items = [⟨doc.path, goBase doc.path, doc.shareType, 0⟩] ∧
    (loadState doc).isMulti = false := by
  simp [loadState, h0, h1]

/-- Witness for C4 at a concrete legacy document. -/
theorem C4_legacy_load_witness :
    (loadState ⟨"id2", "public", 8787, [], false, "/tmp/report.pdf", "file",
        0, 0, "", "", 0, 0, 0, ""⟩).items =
      [⟨"/tmp/report.pdf", "report.pdf", "file", 0⟩] ∧
    (loadState ⟨"id2", "public", 8787, [], false, "/tmp/report.pdf", "file",
        0, 0, "", "", 0, 0, 0, ""⟩).isMulti = false := by
  have h := C4_legacy_load
    ⟨"id2", "public", 8787, [], false, "/tmp/report.pdf", "file", 0, 0, "", "", 0, 0, 0, ""⟩
    rfl (by decide)
  exact ⟨by rw [h.1]; decide, h.2⟩

/-- C7: the escalation the claim demands never happens.  Every graceful
stop in the program targets a non-child pid (read back from the state
file or a pid file written by an earlier invocation), so `process.Wait()`
fails immediately, the `done` branch of the `select` wins at once, and
only `SIGTERM` is ever sent — a process that ignores `SIGTERM` is still
alive when stop returns, in both the controller's `stopProcess` and the
tunnel manager's `Stop`. -/
theorem C7_stop_no_escalation (findOk isChild exitsOnTerm : Bool)
    (hfind : findOk = true) (hnc : isChild = false) (hstay : exitsOnTerm = false) :
    stopProcessSignals findOk false isChild exitsOnTerm = [.term] ∧
    aliveAfterSignals exitsOnTerm (stopProcessSignals findOk false isChild exitsOnTerm) = true ∧
    tunnelStopSignals true findOk true isChild exitsOnTerm = [.term] ∧
    aliveAfterSignals exitsOnTerm (tunnelStopSignals true findOk true isChild exitsOnTerm)
      = true := by
  subst hfind; subst hnc; subst hstay; decide

/-- Witness for C7: the concrete run against a stubborn non-child
process. -/
theorem C7_stop_no_escalation_witness :
    stopProcessSignals true false false false = [.term] ∧
    aliveAfterSignals false (stopProcessSignals true false false false) = true ∧
    tunnelStopSignals true true true false false = [.term] ∧
    aliveAfterSignals false (tunnelStopSignals true true true false false) = true :=
  C7_stop_no_escalation true false false rfl rfl rfl

/-- C8 counterexample: the file-server spawn declares success even when
the child is dead after the settle wait — `startServerProcessM` returns
`.ok` for an environment whose child has already exited, where the claim
demands a process-died-immediately error. -/
theorem C8_counterexample :
    (SpawnEnv.mk true true 0 true "/home/u/.cfshare/server.log" true 42 true false).aliveAfterWait
        = false ∧
    startServerProcessM
        (SpawnEnv.mk true true 0 true "/home/u/.cfshare/server.log" true 42 true false) =
      .ok 42 :=
  ⟨rfl, rfl⟩

/-- C8 (amended): the tunnel spawn waits and reports a
process-died-immediately error naming the log file when the child has
exited by the end of the wait; the file-server spawn waits but returns
success without a liveness check. -/
theorem C8_spawn_liveness (e : SpawnEnv)
    (h1 : e.lookPathOk = true) (h2 : e.existingPid ≤ 0)
    (h3 : e.logOpenOk = true) (h4 : e.startOk = true) (h5 : e.pidSaveOk = true)
    (h6 : e.aliveAfterWait = false) (h7 : e.exeOk = true) :
    tunnelStart e = .error (.diedImmediately e.logPath) ∧
    startServerProcessM e = .ok e.childPid := by
  have hnp : ¬ e.existingPid > 0 := by omega
  simp [tunnelStart, startServerProcessM, h1, h3, h4, h5, h6, h7, hnp]

/-- Witness for C8 at a concrete environment with a dead child. -/
theorem C8_spawn_liveness_witness :
    tunnelStart (SpawnEnv.mk true true 0 true "/tmp/tunnel.log" true 7 true false) =
      .error (.diedImmediately "/tmp/tunnel.log") ∧
    startServerProcessM (SpawnEnv.mk true true 0 true "/tmp/tunnel.log" true 7 true false) =
      .ok 7 :=
  C8_spawn_liveness (SpawnEnv.mk true true 0 true "/tmp/tunnel.log" true 7 true false)
    rfl (by decide) rfl rfl rfl rfl rfl

/-- C9 counterexample: on a credential-protected share, a request that
fails basic authentication is rejected outside the logging middleware
and produces zero access records, where the claim demands exactly one
for every request. -/
theorem C9_counterexample :
    (serverPipeline "share" "pw" false (fun _ => .notFound) "/a.txt" "1.2.3.4:9" 0).2.length
      = 0 := by
  decide

/-- C9 (amended): a request produces exactly one access record — built
from the request path and the response status — unless credentials are
configured and the request fails basic authentication, in which case it
is rejected before the logging middleware and produces none. -/
theorem C9_access_records (username password reqPath remoteAddr : String)
    (authorized : Bool) (handler : Unit → HttpResponse) (now : Int) :
    (serverPipeline username password authorized handler reqPath remoteAddr now).2 =
      (if username ≠ "" ∧ password ≠ "" ∧ authorized = false then []
       else [⟨now, reqPath, statusOf (handler ()), remoteAddr⟩]) := by
  by_cases hc : username ≠ "" ∧ password ≠ ""
  · cases hauth : authorized <;>
      simp [serverPipeline, basicAuthRun, loggingRun, hc]
  · have hfalse : ¬ (username ≠ "" ∧ password ≠ "" ∧ authorized = false) := by
      intro h; exact hc ⟨h.1, h.2.1⟩
    simp [serverPipeline, basicAuthRun, loggingRun, hc, hfalse]

/-! ### Association-list lemmas for the name-to-item map -/

theorem lookupName_append (m₁ m₂ : List (String × ShareItem)) (k : String) :
    lookupName (m₁ ++ m₂) k =
      (match lookupName m₁ k with
       | some v => some v
       | none => lookupName m₂ k) := by
  induction m₁ with
  | nil => simp [lookupName]
  | cons hd tl ih =>
    obtain ⟨n, v⟩ := hd
    by_cases h : n = k <;> simp [lookupName, h, ih]

theorem lookupName_single (n : String) (v : ShareItem) (k : String) :
    lookupName [(n, v)] k = if n = k then some v else none := by
  by_cases h : n = k <;> simp [lookupName, h]

/-- Success of the `buildItemMap` loop under pairwise-distinct names:
the result extends the accumulator and indexes every processed item. -/
theorem buildItemMapAux_ok_of_nodup :
    ∀ (items : List ShareItem) (acc : List (String × ShareItem)),
      (items.map (·.name)).Nodup →
      (∀ it ∈ items, lookupName acc it.name = none) →
      ∃ m, buildItemMapAux acc items = .ok m ∧
        (∀ k v, lookupName acc k = some v → lookupName m k = some v) ∧
        (∀ it ∈ items, lookupName m it.name = some it) := by
  intro items
  induction items with
  | nil =>
    intro acc _ _
    exact ⟨acc, rfl, fun _ _ h => h, by simp⟩
  | cons it rest ih =>
    intro acc hnd hnone
    have hhead : lookupName acc it.name = none := hnone it (by simp)
    have hnd' : (it.name :: rest.map (·.name)).Nodup := by
      rw [List.map_cons] at hnd; exact hnd
    have hndc := List.nodup_cons.mp hnd'
    have hnone' : ∀ it' ∈ rest, lookupName (acc ++ [(it.name, it)]) it'.name = none := by
      intro it' hit'
      have h1 : lookupName acc it'.name = none := hnone it' (by simp [hit'])
      have h2 : it.name ≠ it'.name := by
        intro he
        exact hndc.1 (he ▸ List.mem_map_of_mem (·.name) hit')
      rw [lookupName_append]
      simp [h1, lookupName_single, h2]
    obtain ⟨m, hm, hpres, hall⟩ := ih (acc ++ [(it.name, it)]) hndc.2 hnone'
    refine ⟨m, ?_, ?_, ?_⟩
    · simp [buildItemMapAux, hhead, hm]
    · intro k v hkv
      apply hpres
      rw [lookupName_append]
      simp [hkv]
    · intro it' hit'
      rcases List.mem_cons.mp hit' with rfl | hmem
      · apply hpres
        rw [lookupName_append]
        simp [hhead, lookupName_single]
      · exact hall it' hmem

/-- A successful `buildItemMap` loop forces pairwise-distinct names (and
that no processed name was already in the accumulator). -/
theorem buildItemMapAux_ok_nodup :
    ∀ (items : List ShareItem) (acc : List (String × ShareItem)) (m : List (String × ShareItem)),
      buildItemMapAux acc items = .ok m →
      (items.map (·.name)).Nodup ∧ ∀ it ∈ items, lookupName acc it.name = none := by
  intro items
  induction items with
  | nil =>
    intro acc m _
    exact ⟨by simp, by simp⟩
  | cons it rest ih =>
    intro acc m hok
    by_cases hguard : (lookupName acc it.name).isSome
    · simp [buildItemMapAux, hguard] at hok
    · have hhead : lookupName acc it.name = none := by
        cases h : lookupName acc it.name with
        | none => rfl
        | some v => rw [h] at hguard; simp at hguard
      rw [buildItemMapAux, if_neg hguard] at hok
      obtain ⟨hnd, hnone'⟩ := ih (acc ++ [(it.name, it)]) m hok
      have hnotin : it.name ∉ rest.map (·.name) := by
        intro hmem
        obtain ⟨it', hit', hname⟩ := List.mem_map.mp hmem
        have := hnone' it' hit'
        rw [lookupName_append, hname] at this
        simp [hhead, lookupName_single] at this
      have hweak : ∀ it' ∈ rest, lookupName acc it'.name = none := by
        intro it' hit'
        have := hnone' it' hit'
        rw [lookupName_append] at this
        cases h : lookupName acc it'.name with
        | none => rfl
        | some v => rw [h] at this; simp at this
      refine ⟨?_, ?_⟩
      · rw [List.map_cons]
        exact List.nodup_cons.mpr ⟨hnotin, hnd⟩
      · intro it' hit'
        rcases List.mem_cons.mp hit' with rfl | hmem
        · exact hhead
        · exact hweak it' hmem

/-- C2: building the name-to-item map succeeds exactly when the display
names are pairwise distinct: with unique names every item is retrievable
by its name from the resulting map, and with a duplicate name the
construction returns an error and no map. -/
theorem C2_buildItemMap_correct (items : List ShareItem) :
    ((items.map (·.name)).Nodup →
      ∃ m, buildItemMap items = .ok m ∧ ∀ it ∈ items, lookupName m it.name = some it) ∧
    (¬ (items.map (·.name)).Nodup → ∃ e, buildItemMap items = .error e) := by
  constructor
  · intro h
    obtain ⟨m, hm, _, hall⟩ :=
      buildItemMapAux_ok_of_nodup items [] h (by intro it _; rfl)
    exact ⟨m, hm, hall⟩
  · intro h
    cases he : buildItemMap items with
    | ok m => exact absurd (buildItemMapAux_ok_nodup items [] m he).1 h
    | error e => exact ⟨e, rfl⟩

/-- Witness for C2: a concrete two-item set with unique names builds a
map, and a set with a duplicated name (from two distinct paths) fails. -/
theorem C2_buildItemMap_correct_witness :
    (∃ m, buildItemMap [⟨"/tmp/a.txt", "a.txt", "file", 3⟩, ⟨"/tmp/d", "d", "dir", 0⟩] = .ok m ∧
      ∀ it ∈ [⟨"/tmp/a.txt", "a.txt", "file", 3⟩, (⟨"/tmp/d", "d", "dir", 0⟩ : ShareItem)],
        lookupName m it.name = some it) ∧
    (∃ e, buildItemMap [⟨"/tmp/x/f.txt", "f.txt", "file", 1⟩,
        ⟨"/tmp/y/f.txt", "f.txt", "file", 2⟩] = .error e) :=
  ⟨(C2_buildItemMap_correct _).1 (by decide),
   (C2_buildItemMap_correct _).2 (by decide)⟩

/-! ### Lemmas for the add-path validation loop -/

/-- When some path in the list carries a display name already among
`names0` (a subset of the growing `existing` set), the validation loop
fails — before any state is produced. -/
theorem addLoop_conflict (fs : FS) (names0 : List String) :
    ∀ (ps : List String) (existing : List String) (acc : List ShareItem),
      (∀ n, n ∈ names0 → n ∈ existing) →
      (∃ p ∈ ps, goBase (goAbs fs.cwd p) ∈ names0) →
      addLoop fs existing acc ps = .error () := by
  intro ps
  induction ps with
  | nil =>
    rintro existing acc _ ⟨p, hp, _⟩
    exact absurd hp (List.not_mem_nil p)
  | cons p rest ih =>
    rintro existing acc hsub ⟨q, hq, hqc⟩
    rcases List.mem_cons.mp hq with rfl | hqrest
    · cases hstat : fs.stat q with
      | notExist => simp [addLoop, hstat]
      | failure => simp [addLoop, hstat]
      | found d sz m =>
        have hex : goBase (goAbs fs.cwd q) ∈ existing := hsub _ hqc
        simp [addLoop, hstat, hex]
    · cases hstat : fs.stat p with
      | notExist => simp [addLoop, hstat]
      | failure => simp [addLoop, hstat]
      | found d sz m =>
        by_cases hex : goBase (goAbs fs.cwd p) ∈ existing
        · simp [addLoop, hstat, hex]
        · cases hstat2 : fs.stat (goAbs fs.cwd p) with
          | notExist => simp [addLoop, hstat, hex, hstat2]
          | failure => simp [addLoop, hstat, hex, hstat2]
          | found d2 sz2 m2 =>
            have hsub' : ∀ n, n ∈ names0 → n ∈ goBase (goAbs fs.cwd p) :: existing :=
              fun n hn => List.mem_cons_of_mem _ (hsub n hn)
            simp only [addLoop, hstat, hstat2]
            rw [if_neg (by simpa using hex)]
            exact ih _ _ hsub' ⟨q, hqrest, hqc⟩

/-- C6: an add operation naming an item that already exists in the
running share's set fails: the command exits with an error, hands nothing
to `Save`, and performs no restart — the running server keeps serving the
original set. -/
theorem C6_add_conflict_no_mutation (st : StateRec) (fs : FS) (paths : List String)
    (running : Bool) (hrun : running = true)
    (hconf : ∃ p ∈ paths, goBase (goAbs fs.cwd p) ∈ st.items.map (·.name)) :
    cmdAddM st running fs paths = ⟨true, none, false⟩ := by
  subst hrun
  have herr := addLoop_conflict fs (st.items.map (·.name)) paths
    (st.items.map (·.name)) [] (fun _ h => h) hconf
  simp [cmdAddM, herr]

/-- Witness for C6: adding `a.txt` to a share already holding
`/tmp/a.txt` fails without saving or restarting. -/
theorem C6_add_conflict_no_mutation_witness :
    cmdAddM
      ⟨"id3", "protected", 8787, [⟨"/tmp/a.txt", "a.txt", "file", 3⟩], false, "/tmp/a.txt",
        "file", 11, 12, "share", "pw", 0, 0, 0, ""⟩
      true
      ⟨fun p => if p = "a.txt" ∨ p = "/tmp/a.txt" then .found false 3 0 else .notExist,
        fun _ => none, fun _ => none, "/tmp"⟩
      ["a.txt"] = ⟨true, none, false⟩ := by
  apply C6_add_conflict_no_mutation _ _ _ _ rfl
  exact ⟨"a.txt", by decide, by decide⟩

/-- C10: a remove that would leave zero items fails before mutating
anything (error exit, nothing saved, no restart); every state a remove
saves is non-empty; and every state an add saves, starting from a
non-empty active set, is non-empty — so the item list of an active share
stays non-empty across add and remove. -/
theorem C10_remove_never_empties (st : StateRec) (running : Bool) (names : List String)
    (fs : FS) (paths : List String) :
    (st.items.filter (fun it => ! names.contains it.name) = [] →
      cmdRemoveM st running names = ⟨true, none, false⟩) ∧
    (∀ st', (cmdRemoveM st running names).savedState = some st' → st'.items ≠ []) ∧
    (∀ st', st.items ≠ [] → (cmdAddM st running fs paths).savedState = some st' →
      st'.items ≠ []) := by
  have hri : (removeResult st names).items =
      st.items.filter (fun it => ! names.contains it.name) := by
    unfold removeResult
    dsimp only []
    split <;> rfl
  refine ⟨?_, ?_, ?_⟩
  · intro hempty
    unfold cmdRemoveM
    by_cases hrun : running = true
    · rw [if_neg (not_not_intro hrun)]
      by_cases hlen : st.items.length = 0
      · rw [if_pos hlen]
      · rw [if_neg hlen]
        by_cases hrem : st.items.filter (fun it => names.contains it.name) = []
        · rw [if_pos hrem]
        · rw [if_neg hrem, if_pos hempty]
    · rw [if_pos hrun]
  · intro st' hsome
    unfold cmdRemoveM at hsome
    by_cases hrun : running = true
    · rw [if_neg (not_not_intro hrun)] at hsome
      by_cases hlen : st.items.length = 0
      · rw [if_pos hlen] at hsome
        simp at hsome
      · rw [if_neg hlen] at hsome
        by_cases hrem : st.items.filter (fun it => names.contains it.name) = []
        · rw [if_pos hrem] at hsome
          simp at hsome
        · rw [if_neg hrem] at hsome
          by_cases hrema : st.items.filter (fun it => ! names.contains it.name) = []
          · rw [if_pos hrema] at hsome
            simp at hsome
          · rw [if_neg hrema] at hsome
            simp at hsome
            rw [← hsome, hri]
            exact hrema
    · rw [if_pos hrun] at hsome
      simp at hsome
  · intro st' hne hsome
    unfold cmdAddM at hsome
    by_cases hrun : running = true
    · rw [if_neg (not_not_intro hrun)] at hsome
      cases hal : addLoop fs (st.items.map (·.name)) [] paths with
      | error e =>
        rw [hal] at hsome
        simp at hsome
      | ok newItems =>
        rw [hal] at hsome
        simp at hsome
        rw [← hsome]
        simp [addResult, hne]
    · rw [if_pos hrun] at hsome
      simp at hsome

/-- Witness for C10: removing the sole item of a one-item share is
refused with nothing saved and no restart. -/
theorem C10_remove_never_empties_witness :
    cmdRemoveM
      ⟨"id4", "protected", 8787, [⟨"/tmp/a.txt", "a.txt", "file", 3⟩], false, "/tmp/a.txt",
        "file", 11, 12, "share", "pw", 0, 0, 0, ""⟩
      true ["a.txt"] = ⟨true, none, false⟩ := by
  apply (C10_remove_never_empties _ true ["a.txt"]
    ⟨fun _ => .notExist, fun _ => none, fun _ => none, "/"⟩ []).1
  decide

/-! ### The listing order -/

/-- Characterisation of the `sort.Slice` comparator. -/
theorem goLess_eq_true_iff (a b : FileInfo) :
    goLess a b = true ↔
      ((a.isDir = true ∧ b.isDir = false) ∨ (a.isDir = b.isDir ∧ a.name < b.name)) := by
  cases ha : a.isDir <;> cases hb : b.isDir <;> simp [goLess, ha, hb]

theorem fileLe_refl (a : FileInfo) : fileLe a a = true := by
  simp [fileLe, goLess]

theorem fileLe_total (a b : FileInfo) : fileLe a b = true ∨ fileLe b a = true := by
  cases ha : a.isDir <;> cases hb : b.isDir <;> simp [fileLe, goLess, ha, hb]
  · exact le_total _ _
  · exact le_total _ _

theorem fileLe_trans (a b c : FileInfo) (h1 : fileLe a b = true) (h2 : fileLe b c = true) :
    fileLe a c = true := by
  cases ha : a.isDir <;> cases hb : b.isDir <;> cases hc : c.isDir <;>
    simp [fileLe, goLess, ha, hb, hc] at h1 h2 ⊢ <;>
    exact le_trans h1 h2

/-- The claim-level order of a rendered listing: every directory entry
precedes every file entry, and names ascend within each group. -/
def listingOrdered (l : List FileInfo) : Prop :=
  List.Pairwise
    (fun a b => (a.isDir = true ∧ b.isDir = false) ∨ (a.isDir = b.isDir ∧ a.name ≤ b.name)) l

theorem fileLe_imp_order (a b : FileInfo) (h : fileLe a b = true) :
    (a.isDir = true ∧ b.isDir = false) ∨ (a.isDir = b.isDir ∧ a.name ≤ b.name) := by
  cases ha : a.isDir <;> cases hb : b.isDir <;>
    simp [fileLe, goLess, ha, hb] at h ⊢ <;>
    exact h

/-- Sorted under the non-strict listing order. -/
def SortedLe (l : List FileInfo) : Prop :=
  List.Pairwise (fun a b => fileLe a b = true) l

theorem insertFile_perm (x : FileInfo) (l : List FileInfo) :
    List.Perm (insertFile x l) (x :: l) := by
  induction l with
  | nil => simp [insertFile]
  | cons y ys ih =>
    by_cases h : fileLe x y = true
    · simp [insertFile, h]
    · simp only [insertFile, if_neg h]
      exact (List.Perm.cons y ih).trans (List.Perm.swap x y ys)

theorem sortFiles_perm (l : List FileInfo) : List.Perm (sortFiles l) l := by
  induction l with
  | nil => simp [sortFiles]
  | cons x xs ih =>
    exact (insertFile_perm x (sortFiles xs)).trans (List.Perm.cons x ih)

theorem insertFile_sorted (x : FileInfo) (l : List FileInfo) (h : SortedLe l) :
    SortedLe (insertFile x l) := by
  induction l with
  | nil => simp [insertFile, SortedLe]
  | cons y ys ih =>
    obtain ⟨hy, hys⟩ := List.pairwise_cons.mp h
    by_cases hxy : fileLe x y = true
    · simp only [insertFile, if_pos hxy]
      refine List.pairwise_cons.mpr ⟨?_, h⟩
      intro z hz
      rcases List.mem_cons.mp hz with rfl | hzys
      · exact hxy
      · exact fileLe_trans x y z hxy (hy z hzys)
    · simp only [insertFile, if_neg hxy]
      refine List.pairwise_cons.mpr ⟨?_, ih hys⟩
      intro z hz
      have hz' : z ∈ x :: ys := (insertFile_perm x ys).mem_iff.mp hz
      rcases List.mem_cons.mp hz' with rfl | hzys
      · rcases fileLe_total z y with h1 | h2
        · exact absurd h1 hxy
        · exact h2
      · exact hy z hzys

theorem sortFiles_sorted (l : List FileInfo) : SortedLe (sortFiles l) := by
  induction l with
  | nil => simp [sortFiles, SortedLe]
  | cons x xs ih => exact insertFile_sorted x (sortFiles xs) ih

/-- Two comparably sorted permutations of a name-unique entry list are
equal, so the sorted order is independent of the input permutation. -/
theorem sortedLe_perm_nodup_eq :
    ∀ (l₁ l₂ : List FileInfo), SortedLe l₁ → SortedLe l₂ → List.Perm l₁ l₂ →
      (l₁.map (·.name)).Nodup → l₁ = l₂ := by
  intro l₁
  induction l₁ with
  | nil =>
    intro l₂ _ _ hp _
    exact (List.Perm.eq_nil hp.symm).symm
  | cons a t₁ ih =>
    intro l₂ hs₁ hs₂ hp hnd
    cases l₂ with
    | nil =>
      have := List.Perm.eq_nil hp
      simp at this
    | cons b t₂ =>
      have hmem_b : b ∈ a :: t₁ := hp.symm.subset (List.mem_cons_self b t₂)
      have hmem_a : a ∈ b :: t₂ := hp.subset (List.mem_cons_self a t₁)
      have hab : fileLe a b = true := by
        rcases List.mem_cons.mp hmem_b with h | hbt
        · rw [h]; exact fileLe_refl a
        · exact (List.pairwise_cons.mp hs₁).1 b hbt
      have hba : fileLe b a = true := by
        rcases List.mem_cons.mp hmem_a with h | hat
        · rw [h]; exact fileLe_refl b
        · exact (List.pairwise_cons.mp hs₂).1 a hat
      have hnames : a.name = b.name := by
        cases hda : a.isDir <;> cases hdb : b.isDir <;>
          simp [fileLe, goLess, hda, hdb] at hab hba
        all_goals exact String.ext (le_antisymm hab hba)
      have hnd' : (a.name :: t₁.map (·.name)).Nodup := by
        rw [List.map_cons] at hnd; exact hnd
      have hae : b = a := by
        rcases List.mem_cons.mp hmem_b with h | hbt
        · exact h
        · exfalso
          have : a.name ∈ t₁.map (·.name) :=
            hnames ▸ List.mem_map_of_mem (·.name) hbt
          exact (List.nodup_cons.mp hnd').1 this
      subst hae
      have ht : List.Perm t₁ t₂ := hp.cons_inv
      have heq := ih t₂ (List.pairwise_cons.mp hs₁).2 (List.pairwise_cons.mp hs₂).2 ht
        (List.nodup_cons.mp hnd').2
      rw [heq]

/-- C5: the listing sort used by every serving mode returns a
permutation of its input entries ordered with all directories before all
files and ascending names within each group, and — for entry lists with
pairwise-distinct names, as directory contents and the virtual root
always are — the result is the same for any permutation of the input. -/
theorem C5_listing_sorted (entries : List FileInfo) :
    List.Perm (sortFiles entries) entries ∧
    listingOrdered (sortFiles entries) ∧
    (∀ entries', List.Perm entries' entries →
      (entries.map (·.name)).Nodup → sortFiles entries' = sortFiles entries) := by
  refine ⟨sortFiles_perm entries, ?_, ?_⟩
  · exact List.Pairwise.imp (fun h => fileLe_imp_order _ _ h) (sortFiles_sorted entries)
  · intro entries' hperm hnd
    apply sortedLe_perm_nodup_eq
    · exact sortFiles_sorted entries'
    · exact sortFiles_sorted entries
    · exact (sortFiles_perm entries').trans (hperm.trans (sortFiles_perm entries).symm)
    · have h1 : List.Perm ((sortFiles entries').map (·.name)) (entries.map (·.name)) :=
        ((sortFiles_perm entries').map (·.name)).trans (hperm.map (·.name))
      exact h1.nodup_iff.mpr hnd

/-- Witness for C5 at a concrete three-entry listing and one of its
permutations. -/
theorem C5_listing_sorted_witness :
    List.Perm
      (sortFiles [⟨"b.txt", 1, 0, false, "/b.txt"⟩, ⟨"adir", 0, 0, true, "/adir/"⟩,
        ⟨"a.txt", 2, 0, false, "/a.txt"⟩])
      [⟨"b.txt", 1, 0, false, "/b.txt"⟩, ⟨"adir", 0, 0, true, "/adir/"⟩,
        ⟨"a.txt", 2, 0, false, "/a.txt"⟩] ∧
    listingOrdered
      (sortFiles [⟨"b.txt", 1, 0, false, "/b.txt"⟩, ⟨"adir", 0, 0, true, "/adir/"⟩,
        ⟨"a.txt", 2, 0, false, "/a.txt"⟩]) ∧
    sortFiles [⟨"a.txt", 2, 0, false, "/a.txt"⟩, ⟨"b.txt", 1, 0, false, "/b.txt"⟩,
        ⟨"adir", 0, 0, true, "/adir/"⟩] =
      sortFiles [⟨"b.txt", 1, 0, false, "/b.txt"⟩, ⟨"adir", 0, 0, true, "/adir/"⟩,
        ⟨"a.txt", 2, 0, false, "/a.txt"⟩] := by
  refine ⟨(C5_listing_sorted _).1, (C5_listing_sorted _).2.1, ?_⟩
  exact (C5_listing_sorted _).2.2 _ (by decide) (by decide)

/-! ### Split/join lemmas for slash-separated paths -/

theorem mk_data (s : String) : String.mk s.data = s := rfl

theorem data_mk (l : List Char) : (String.mk l).data = l := rfl

theorem data_append (s t : String) : (s ++ t).data = s.data ++ t.data := rfl

theorem chSplit_ne_nil (sep : Char) (l : List Char) : chSplit sep l ≠ [] := by
  cases l with
  | nil => simp [chSplit]
  | cons c cs =>
    simp only [chSplit]
    by_cases h : c = sep
    · simp [h]
    · rw [if_neg h]
      cases hr : chSplit sep cs <;> simp

theorem sep_not_mem_chSplit (sep : Char) (l : List Char) :
    ∀ x ∈ chSplit sep l, sep ∉ x := by
  induction l with
  | nil =>
    intro x hx
    simp [chSplit] at hx
    simp [hx]
  | cons c cs ih =>
    intro x hx
    by_cases h : c = sep
    · simp only [chSplit, if_pos h] at hx
      rcases List.mem_cons.mp hx with rfl | hx'
      · simp
      · exact ih x hx'
    · simp only [chSplit, if_neg h] at hx
      cases hr : chSplit sep cs with
      | nil => exact absurd hr (chSplit_ne_nil sep cs)
      | cons hd tl =>
        rw [hr] at hx
        rcases List.mem_cons.mp hx with rfl | hx'
        · intro hmem
          rcases List.mem_cons.mp hmem with heq | hmem'
          · exact h heq.symm
          · exact ih hd (by rw [hr]; exact List.mem_cons_self hd tl) hmem'
        · exact ih x (by rw [hr]; exact List.mem_cons_of_mem hd hx')

theorem chSplit_no_sep (sep : Char) (x : List Char) (h : sep ∉ x) :
    chSplit sep x = [x] := by
  induction x with
  | nil => rfl
  | cons c cs ih =>
    have hcs : sep ∉ cs := fun hm => h (List.mem_cons_of_mem c hm)
    have hc : ¬ c = sep := fun he => h (List.mem_cons.mpr (Or.inl he.symm))
    simp only [chSplit, if_neg hc, ih hcs]

theorem chSplit_append_sep (sep : Char) (x r : List Char) (h : sep ∉ x) :
    chSplit sep (x ++ sep :: r) = x :: chSplit sep r := by
  induction x with
  | nil => simp [chSplit]
  | cons c cs ih =>
    have hcs : sep ∉ cs := fun hm => h (List.mem_cons_of_mem c hm)
    have hc : ¬ c = sep := fun he => h (List.mem_cons.mpr (Or.inl he.symm))
    simp only [List.cons_append, chSplit, if_neg hc, List.append_eq, ih hcs]

theorem chSplit_chJoin (sep : Char) :
    ∀ (l : List (List Char)), l ≠ [] → (∀ x ∈ l, sep ∉ x) →
      chSplit sep (chJoin sep l) = l := by
  intro l
  induction l with
  | nil => intro h _; exact absurd rfl h
  | cons x xs ih =>
    intro _ hall
    cases xs with
    | nil =>
      simp only [chJoin]
      exact chSplit_no_sep sep x (hall x (List.mem_cons_self x []))
    | cons y ys =>
      have hx : sep ∉ x := hall x (List.mem_cons_self x _)
      have hall' : ∀ z ∈ y :: ys, sep ∉ z := fun z hz => hall z (List.mem_cons_of_mem x hz)
      simp only [chJoin]
      rw [chSplit_append_sep sep x _ hx, ih (by simp) hall']

theorem splitSlash_no_slash (p : String) : ∀ x ∈ splitSlash p, '/' ∉ x.data := by
  intro x hx
  unfold splitSlash at hx
  obtain ⟨cl, hcl, rfl⟩ := List.mem_map.mp hx
  rw [data_mk]
  exact sep_not_mem_chSplit '/' p.data cl hcl

theorem splitSlash_joinSlash (l : List String) (h0 : l ≠ [])
    (h : ∀ x ∈ l, '/' ∉ x.data) : splitSlash (joinSlash l) = l := by
  unfold splitSlash joinSlash
  rw [data_mk]
  rw [chSplit_chJoin '/' (l.map String.data) (by simpa using h0) ?hsep]
  · simp only [List.map_map]
    have hfun : (String.mk ∘ String.data) = fun s => s := funext fun s => rfl
    rw [hfun, List.map_id']
  case hsep =>
    intro x hx
    obtain ⟨s, hs, rfl⟩ := List.mem_map.mp hx
    exact h s hs

theorem splitSlash_slash_append (s : String) :
    splitSlash ("/" ++ s) = "" :: splitSlash s := by
  unfold splitSlash
  rw [data_append]
  simp [chSplit]

/-! ### Invariants of the Clean segment loop -/

theorem cleanAux_rooted_no_dd (segs : List String) :
    ∀ out, ".." ∉ out → ".." ∉ cleanAux true out segs := by
  induction segs with
  | nil =>
    intro out h
    simpa [cleanAux] using h
  | cons seg rest ih =>
    intro out h
    by_cases h1 : seg = "" ∨ seg = "."
    · simp only [cleanAux, if_pos h1]
      exact ih out h
    · by_cases h2 : seg = ".."
      · by_cases h3 : out ≠ [] ∧ out.getLast? ≠ some ".."
        · simp only [cleanAux, if_neg h1, if_pos h2, if_pos h3]
          exact ih _ (fun hm => h ((List.dropLast_sublist _).subset hm))
        · simp only [cleanAux, if_neg h1, if_pos h2, if_neg h3, if_pos rfl]
          exact ih out h
      · simp only [cleanAux, if_neg h1, if_neg h2]
        refine ih _ ?_
        intro hm
        rcases List.mem_append.mp hm with hm1 | hm2
        · exact h hm1
        · simp at hm2
          exact h2 hm2.symm

/-- All `..` segments of the Clean output form a prefix. -/
def DDShape (l : List String) : Prop :=
  ∃ k rest, l = List.replicate k ".." ++ rest ∧ ".." ∉ rest

theorem ddShape_nil : DDShape [] :=
  ⟨0, [], rfl, by simp⟩

theorem ddShape_append_ne (l : List String) (s : String) (hs : ¬ s = "..")
    (h : DDShape l) : DDShape (l ++ [s]) := by
  obtain ⟨k, rest, rfl, hr⟩ := h
  refine ⟨k, rest ++ [s], by rw [List.append_assoc], ?_⟩
  intro hm
  rcases List.mem_append.mp hm with h1 | h2
  · exact hr h1
  · simp at h2
    exact hs h2.symm

theorem getLast?_replicate_dd (k : Nat) (hk : k ≠ 0) :
    (List.replicate k "..").getLast? = some ".." := by
  induction k with
  | zero => exact absurd rfl hk
  | succ n ihn =>
    cases n with
    | zero => rfl
    | succ m =>
      rw [List.replicate_succ, List.replicate_succ, List.getLast?_cons_cons,
        ← List.replicate_succ]
      exact ihn (by omega)

theorem ddShape_dropLast (l : List String) (h : DDShape l)
    (hcond : l ≠ [] ∧ l.getLast? ≠ some "..") : DDShape l.dropLast := by
  obtain ⟨k, rest, rfl, hr⟩ := h
  cases hrest : rest with
  | nil =>
    exfalso
    subst hrest
    have hk : k ≠ 0 := by
      intro hk0
      subst hk0
      exact hcond.1 rfl
    exact hcond.2 (by simpa using getLast?_replicate_dd k hk)
  | cons r rs =>
    subst hrest
    rw [List.dropLast_append_of_ne_nil _ (by simp)]
    refine ⟨k, (r :: rs).dropLast, rfl, ?_⟩
    intro hm
    exact hr ((List.dropLast_sublist _).subset hm)

theorem ddShape_push (l : List String) (h : DDShape l)
    (hcond : ¬ (l ≠ [] ∧ l.getLast? ≠ some "..")) : DDShape (l ++ [".."]) := by
  obtain ⟨k, rest, rfl, hr⟩ := h
  rcases not_and_or.mp hcond with h1 | h2
  · have hnil : List.replicate k ".." ++ rest = [] := not_ne_iff.mp h1
    rw [hnil]
    exact ⟨1, [], by simp [List.replicate_succ], by simp⟩
  · have h2' : (List.replicate k ".." ++ rest).getLast? = some ".." := not_ne_iff.mp h2
    cases hrest : rest with
    | cons r rs =>
      exfalso
      subst hrest
      rw [List.getLast?_append_cons] at h2'
      have : ".." ∈ r :: rs := by
        have := List.getLast?_eq_getLast (r :: rs) (by simp)
        rw [this] at h2'
        have hx := Option.some.inj h2'
        rw [← hx]
        exact List.getLast_mem (by simp)
      exact hr this
    | nil =>
      subst hrest
      refine ⟨k + 1, [], ?_, by simp⟩
      rw [List.append_nil, List.append_nil, ← List.replicate_succ']

theorem cleanAux_dd (segs : List String) :
    ∀ out, DDShape out → DDShape (cleanAux false out segs) := by
  induction segs with
  | nil =>
    intro out h
    simpa [cleanAux] using h
  | cons seg rest ih =>
    intro out h
    by_cases h1 : seg = "" ∨ seg = "."
    · simp only [cleanAux, if_pos h1]
      exact ih out h
    · by_cases h2 : seg = ".."
      · by_cases h3 : out ≠ [] ∧ out.getLast? ≠ some ".."
        · simp only [cleanAux, if_neg h1, if_pos h2, if_pos h3]
          exact ih _ (ddShape_dropLast out h h3)
        · simp only [cleanAux, if_neg h1, if_pos h2, if_neg h3]
          rw [if_neg (by simp)]
          exact ih _ (ddShape_push out h h3)
      · simp only [cleanAux, if_neg h1, if_neg h2]
        exact ih _ (ddShape_append_ne out seg h2 h)

theorem cleanAux_no_slash (rooted : Bool) :
    ∀ (segs : List String), (∀ s ∈ segs, '/' ∉ s.data) →
      ∀ out, (∀ x ∈ out, '/' ∉ x.data) →
      ∀ x ∈ cleanAux rooted out segs, '/' ∉ x.data := by
  intro segs
  induction segs with
  | nil =>
    intro _ out hout x hx
    exact hout x (by simpa [cleanAux] using hx)
  | cons seg rest ih =>
    intro hsegs out hout
    have hsegs' : ∀ s ∈ rest, '/' ∉ s.data :=
      fun s hs => hsegs s (List.mem_cons_of_mem seg hs)
    have hseg : '/' ∉ seg.data := hsegs seg (List.mem_cons_self seg rest)
    by_cases h1 : seg = "" ∨ seg = "."
    · simp only [cleanAux, if_pos h1]
      exact ih hsegs' out hout
    · by_cases h2 : seg = ".."
      · by_cases h3 : out ≠ [] ∧ out.getLast? ≠ some ".."
        · simp only [cleanAux, if_neg h1, if_pos h2, if_pos h3]
          exact ih hsegs' _ (fun x hx => hout x ((List.dropLast_sublist _).subset hx))
        · simp only [cleanAux, if_neg h1, if_pos h2, if_neg h3]
          cases rooted with
          | true =>
            rw [if_pos rfl]
            exact ih hsegs' out hout
          | false =>
            rw [if_neg (by simp)]
            refine ih hsegs' _ ?_
            intro x hx
            rcases List.mem_append.mp hx with hx1 | hx2
            · exact hout x hx1
            · simp at hx2
              subst hx2
              subst h2
              exact hseg
      · simp only [cleanAux, if_neg h1, if_neg h2]
        refine ih hsegs' _ ?_
        intro x hx
        rcases List.mem_append.mp hx with hx1 | hx2
        · exact hout x hx1
        · simp at hx2
          subst hx2
          exact hseg

/-- Any path whose cleaned form contains a `..` segment cleans to
`..`-headed segments: `Clean` pushes every surviving parent reference to
the front, so the cleaned string is `joinSlash (".." :: t)` for some
slash-free tail `t`. -/
theorem goClean_dd_shape (p : String) (h : hasDotDotSeg (goClean p) = true) :
    ∃ t, goClean p = joinSlash (".." :: t) ∧ ∀ x ∈ ".." :: t, '/' ∉ x.data := by
  by_cases hp : p = ""
  · rw [hp] at h
    exact absurd h (by decide)
  · by_cases hro : hasPre p "/" = true
    · exfalso
      have hclean : goClean p = "/" ++ joinSlash (cleanAux true [] (splitSlash p)) := by
        simp [goClean, hp, hro]
      have hnodd : ".." ∉ cleanAux true [] (splitSlash p) :=
        cleanAux_rooted_no_dd (splitSlash p) [] (by simp)
      rw [hclean] at h
      unfold hasDotDotSeg at h
      rw [splitSlash_slash_append] at h
      simp at h
      by_cases hout : cleanAux true [] (splitSlash p) = []
      · rw [hout] at h
        exact absurd h (by decide)
      · rw [splitSlash_joinSlash _ hout
          (cleanAux_no_slash true (splitSlash p) (splitSlash_no_slash p) [] (by simp))] at h
        exact hnodd h
    · have hro' : hasPre p "/" = false := by
        cases hh : hasPre p "/" with
        | true => exact absurd hh hro
        | false => rfl
      have hdd : DDShape (cleanAux false [] (splitSlash p)) :=
        cleanAux_dd (splitSlash p) [] ddShape_nil
      by_cases hout : cleanAux false [] (splitSlash p) = []
      · exfalso
        have hclean : goClean p = "." := by simp [goClean, hp, hro', hout]
        rw [hclean] at h
        exact absurd h (by decide)
      · have hclean : goClean p = joinSlash (cleanAux false [] (splitSlash p)) := by
          simp [goClean, hp, hro', hout]
        have hfree : ∀ x ∈ cleanAux false [] (splitSlash p), '/' ∉ x.data :=
          cleanAux_no_slash false (splitSlash p) (splitSlash_no_slash p) [] (by simp)
        rw [hclean] at h
        unfold hasDotDotSeg at h
        rw [splitSlash_joinSlash _ hout hfree] at h
        simp at h
        obtain ⟨k, rest, heq, hnr⟩ := hdd
        cases k with
        | zero =>
          rw [heq] at h
          simp at h
          exact absurd h hnr
        | succ k' =>
          refine ⟨List.replicate k' ".." ++ rest, ?_, ?_⟩
          · rw [hclean, heq, List.replicate_succ, List.cons_append]
          · intro x hx
            have hx' : x ∈ cleanAux false [] (splitSlash p) := by
              rw [heq, List.replicate_succ, List.cons_append]
              exact hx
            exact hfree x hx'

theorem joinSlash_dd_data (t : List String) :
    ∃ r, (joinSlash (".." :: t)).data = '.' :: '.' :: r := by
  cases t with
  | nil => exact ⟨[], rfl⟩
  | cons y ys => exact ⟨'/' :: chJoin '/' ((y :: ys).map String.data), rfl⟩

theorem hasPre_slash_dd (t : List String) :
    hasPre (joinSlash (".." :: t)) "/" = false := by
  obtain ⟨r, hr⟩ := joinSlash_dd_data t
  unfold hasPre
  rw [hr, show "/".data = ['/'] by decide]
  simp [List.isPrefixOf]

theorem trimPre_slash_dd (t : List String) :
    trimPre (joinSlash (".." :: t)) "/" = joinSlash (".." :: t) := by
  have h := hasPre_slash_dd t
  unfold hasPre at h
  unfold trimPre
  rw [if_neg (by simp [h])]

theorem hasPre_dd_dd (t : List String) :
    hasPre (joinSlash (".." :: t)) ".." = true := by
  obtain ⟨r, hr⟩ := joinSlash_dd_data t
  unfold hasPre
  rw [hr, show "..".data = ['.', '.'] by decide]
  simp [List.isPrefixOf]

theorem joinSlash_dd_ne (t : List String) :
    joinSlash (".." :: t) ≠ "/" ∧ joinSlash (".." :: t) ≠ "." ∧
      joinSlash (".." :: t) ≠ "" := by
  obtain ⟨r, hr⟩ := joinSlash_dd_data t
  refine ⟨fun he => ?_, fun he => ?_, fun he => ?_⟩
  · have hd := congrArg String.data he
    rw [hr, show "/".data = ['/'] by decide] at hd
    simp at hd
  · have hd := congrArg String.data he
    rw [hr, show ".".data = ['.'] by decide] at hd
    simp at hd
  · have hd := congrArg String.data he
    rw [hr, show "".data = [] by decide] at hd
    simp at hd

theorem splitN2_dd_head (t : List String) (ht : ∀ x ∈ ".." :: t, '/' ∉ x.data) :
    (splitN2 (joinSlash (".." :: t))).headD "" = ".." := by
  have hsplit : splitSlash (joinSlash (".." :: t)) = ".." :: t :=
    splitSlash_joinSlash _ (by simp) ht
  unfold splitN2
  rw [hsplit]
  cases t with
  | nil => rfl
  | cons y ys => rfl

/-- C1 (amended): a request path whose cleaned form contains a
parent-directory segment never yields a 200 response: the multi-item
router answers Not Found — the leading `..` segment fails the item-map
lookup (no share item is ever named `..`) — while the single-directory
handler and the item-relative boundary check in `serveDirWithBase`
answer Forbidden. -/
theorem C1_traversal_never_ok (fs : FS) (srv : Server) (now : Int)
    (urlPath subPath sharePath basePath urlPre : String)
    (hdd : hasDotDotSeg (goClean urlPath) = true)
    (hsub : hasDotDotSeg (goClean subPath) = true)
    (hmap : lookupName srv.itemMap ".." = none) :
    handleMultiShare fs srv now urlPath = .notFound ∧
    statusOf (handleMultiShare fs srv now urlPath) ≠ 200 ∧
    (srv.isMulti = true → handleRequest fs srv now urlPath = .notFound) ∧
    serveDir fs sharePath urlPath = .forbidden ∧
    serveDirWithBase fs basePath urlPre subPath = .forbidden := by
  obtain ⟨t, heq, hfree⟩ := goClean_dd_shape urlPath hdd
  obtain ⟨t2, heq2, hfree2⟩ := goClean_dd_shape subPath hsub
  obtain ⟨hne1, hne2, hne3⟩ := joinSlash_dd_ne t
  obtain ⟨hne1', hne2', hne3'⟩ := joinSlash_dd_ne t2
  have hmulti : handleMultiShare fs srv now urlPath = .notFound := by
    simp only [handleMultiShare]
    rw [heq]
    simp only [trimPre_slash_dd]
    rw [if_neg (by rintro (h | h | h); exacts [hne1 h, hne2 h, hne3 h])]
    rw [splitN2_dd_head t hfree, hmap]
  refine ⟨hmulti, by rw [hmulti]; decide, ?_, ?_, ?_⟩
  · intro hm
    simp only [handleRequest, hm]
    simpa using hmulti
  · simp only [serveDir]
    rw [heq]
    simp only [trimPre_slash_dd]
    rw [hasPre_dd_dd]
    simp
  · simp only [serveDirWithBase]
    rw [heq2, if_neg hne2', hasPre_dd_dd]
    simp

/-- The environment of the C1 counterexample: `/etc/passwd` exists. -/
def cexFS : FS :=
  ⟨fun p => if p = "/etc/passwd" then .found false 100 0 else .notExist,
    fun _ => none, fun _ => none, "/"⟩

/-- The multi-mode server of the C1 counterexample: items `a.txt` and
`d` with their name map, as `NewServer` builds them. -/
def cexSrv : Server :=
  ⟨[⟨"/tmp/a.txt", "a.txt", "file", 3⟩, ⟨"/tmp/d", "d", "dir", 0⟩],
    [("a.txt", ⟨"/tmp/a.txt", "a.txt", "file", 3⟩), ("d", ⟨"/tmp/d", "d", "dir", 0⟩)],
    true, "", ""⟩

/-- C1 counterexample: the request path `../../etc/passwd` — whose
cleaned form contains a parent-directory segment — is answered by the
multi-item request handler with Not Found (404), not Forbidden (403),
even though the traversal target exists in the filesystem. -/
theorem C1_counterexample :
    hasDotDotSeg (goClean "../../etc/passwd") = true ∧
    cexFS.stat "/etc/passwd" = .found false 100 0 ∧
    handleRequest cexFS cexSrv 0 "../../etc/passwd" = .notFound ∧
    HttpResponse.notFound ≠ HttpResponse.forbidden := by
  refine ⟨by decide, by decide, ?_, by decide⟩
  rfl

/-- Witness for C1 at the concrete traversal request. -/
theorem C1_traversal_never_ok_witness :
    handleMultiShare cexFS cexSrv 0 "../../etc/passwd" = .notFound ∧
    statusOf (handleMultiShare cexFS cexSrv 0 "../../etc/passwd") ≠ 200 ∧
    (cexSrv.isMulti = true → handleRequest cexFS cexSrv 0 "../../etc/passwd" = .notFound) ∧
    serveDir cexFS "/tmp/d" "../../etc/passwd" = .forbidden ∧
    serveDirWithBase cexFS "/tmp/d" "/d" "../../etc/passwd" = .forbidden :=
  C1_traversal_never_ok cexFS cexSrv 0 "../../etc/passwd" "../../etc/passwd"
    "/tmp/d" "/tmp/d" "/d" (by decide) (by decide) (by decide)

end Cfshare
